import Mathlib

/-!
Verification of `zwad/aad.py`: the active-learning anomaly-detection loop
(`ConiferestEngine`), the prior-knowledge seeding (`_handle_initial_knowns`),
and the result sink (`ResultsSink`).

The Python source is shallowly embedded below.  Machine integers (`np.uint64`
object identifiers) are modelled as `Nat`; anomaly scores (real-valued in the
source, produced by an opaque scoring model) are modelled as `Int`, which
preserves the order structure the loop depends on; feature rows are opaque
`List Int` vectors.  The scoring model (`coniferest`'s anomaly detector) is an
external collaborator and is modelled as a record of `train`/`score`/`observe`
functions over an abstract state type, exactly the capability set the loop
uses.
-/

namespace Zwad

/-- Label from `coniferest.datasets`: two-valued tag used for `observe`. -/
inductive Label where
  | ANOMALY
  | REGULAR
deriving DecidableEq, Repr

/-! ## np.argsort

`_run_interactive` and `_run_non_interactive` both call `np.argsort(scores)`
with the default `kind='quicksort'`.  numpy's default indirect sort is the
generic introsort of `numpy/core/src/npysort/quicksort.c.src` (`aquicksort`):
median-of-3 quicksort partitioning for segments longer than
`SMALL_QUICKSORT = 15` (that is, on segments of at
least 17) elements, insertion sort for small segments, and a
heapsort (`aheapsort`) fallback once the recursion depth exceeds twice the
most-significant-bit position of the array length.  Only the order of the
score values is inspected; the permutation array starts as `0, 1, ..., n-1`.
That algorithm is transliterated here over `List Nat` (the permutation being
built) and `List Int` (the score values): C pointer arithmetic becomes
explicit positions, and in-place swaps become `List.set`.  The C code's
explicit work stack is rendered as recursion on the two disjoint
sub-segments, which computes the same array.  Loops are given fuel bounds
that are generous upper bounds on their iteration counts.
-/

/-- Value of the score array `v` at the position the permutation array `a`
holds at slot `k` (the C code's `v[a[k]]`). -/
def scoreOf (v : List Int) (a : List Nat) (k : Nat) : Int :=
  v.getD (a.getD k 0) 0

/-- In-place swap of two slots of the permutation array (`INTP_SWAP`).  The C
code only ever swaps in-bounds slots; out-of-bounds swaps are identity. -/
def lswap (a : List Nat) (i j : Nat) : List Nat :=
  if i < a.length ∧ j < a.length then
    (a.set i (a.getD j 0)).set j (a.getD i 0)
  else a

/-- The partition scan `do ++pi; while (v[*pi] < vp)`: returns the final
position of `pi`. -/
def scanUp (v : List Int) (a : List Nat) (vp : Int) : Nat → Nat → Nat
  | p, 0 => p + 1
  | p, f + 1 =>
    let q := p + 1
    if scoreOf v a q < vp then scanUp v a vp q f else q

/-- The partition scan `do --pj; while (vp < v[*pj])`: returns the final
position of `pj`. -/
def scanDown (v : List Int) (a : List Nat) (vp : Int) : Nat → Nat → Nat
  | p, 0 => p - 1
  | p, f + 1 =>
    let q := p - 1
    if vp < scoreOf v a q then scanDown v a vp q f else q

/-- The inner partition exchange loop of `aquicksort`: scan up, scan down,
stop when the cursors cross, otherwise swap and continue.  Returns the
array and the final `pi`. -/
def partLoop (v : List Int) (vp : Int) : List Nat → Nat → Nat → Nat → List Nat × Nat
  | a, i, _, 0 => (a, i)
  | a, i, j, f + 1 =>
    let i := scanUp v a vp i a.length
    let j := scanDown v a vp j a.length
    if j ≤ i then (a, i) else partLoop v vp (lswap a i j) i j f

/-- Stable insertion of index `x` into the sorted index list: `x` is placed
after every index whose score is `≤` its own, exactly where the insertion
loop `while (pj > pl && LT(vp, v[*pk]))` of `aquicksort` deposits it. -/
def argInsertOne (v : List Int) (x : Nat) : List Nat → List Nat
  | [] => [x]
  | y :: ys => if v.getD y 0 ≤ v.getD x 0 then y :: argInsertOne v x ys else x :: y :: ys

/-- The insertion sort `aquicksort` runs on segments of at most 16+1 slots:
each slot in turn is inserted into the sorted prefix. -/
def argInsertionSort (v : List Int) (l : List Nat) : List Nat :=
  l.foldl (fun acc x => argInsertOne v x acc) []

/-- One-based read of the heap segment (`aheapsort` views the segment through
`a = tosort - 1`). -/
def hGet (s : List Nat) (k : Nat) : Nat :=
  s.getD (k - 1) 0

/-- One-based write of the heap segment. -/
def hSet (s : List Nat) (k x : Nat) : List Nat :=
  s.set (k - 1) x

/-- The sift-down loop shared by both phases of `aheapsort`: the hole at `i`
descends towards the larger child while the lifted value `tmp` scores below
it, then `tmp` is written into the final hole. -/
def siftDown (v : List Int) (tmp : Nat) : List Nat → Nat → Nat → Nat → Nat → List Nat
  | s, i, _, _, 0 => hSet s i tmp
  | s, i, j, n, f + 1 =>
    if j ≤ n then
      let j := if j < n ∧ v.getD (hGet s j) 0 < v.getD (hGet s (j + 1)) 0 then j + 1 else j
      if v.getD tmp 0 < v.getD (hGet s j) 0 then
        siftDown v tmp (hSet s i (hGet s j)) j (j + j) n f
      else hSet s i tmp
    else hSet s i tmp

/-- Heapify phase of `aheapsort`: `for (l = n >> 1; l > 0; --l)` sift `a[l]`
down; the counter argument runs through `n/2, ..., 1`. -/
def heapifyLoop (v : List Int) (n : Nat) : List Nat → Nat → List Nat
  | s, 0 => s
  | s, c + 1 =>
    heapifyLoop v n (siftDown v (hGet s (c + 1)) s (c + 1) ((c + 1) + (c + 1)) n (n + 1)) c

/-- Extraction phase of `aheapsort`: while the heap has more than one slot,
move the root to the end, shrink, and sift the former last value down. -/
def heapExtract (v : List Int) : List Nat → Nat → List Nat
  | s, n + 2 =>
    let nn := n + 2
    let tmp := hGet s nn
    let s := hSet s nn (hGet s 1)
    heapExtract v (siftDown v tmp s 1 2 (nn - 1) nn) (n + 1)
  | s, _ => s

/-- The `aheapsort` pass on one extracted segment. -/
def heapsortSeg (v : List Int) (s : List Nat) : List Nat :=
  heapExtract v (heapifyLoop v s.length s (s.length / 2)) s.length

/-- The three conditional swaps of `aquicksort` that sort
`a[pl], a[pm], a[pr]` so the median sits at `pm`. -/
def med3Swap (v : List Int) (a : List Nat) (pl pm pr : Nat) : List Nat :=
  let a := if scoreOf v a pm < scoreOf v a pl then lswap a pm pl else a
  let a := if scoreOf v a pr < scoreOf v a pm then lswap a pr pm else a
  if scoreOf v a pm < scoreOf v a pl then lswap a pm pl else a

/-- Copy of the segment `[lo, lo+len)` of the permutation array. -/
def segExtract (a : List Nat) (lo len : Nat) : List Nat :=
  (a.drop lo).take len

/-- Write a transformed segment back at position `lo`. -/
def segWrite (a : List Nat) (lo : Nat) (s : List Nat) : List Nat :=
  a.take lo ++ s ++ a.drop (lo + s.length)

/-- The segment-level control flow of `aquicksort`: insertion sort for at
most `SMALL_QUICKSORT + 1 = 16` slots, heapsort once the depth budget is
exhausted, otherwise a median-of-3 partition followed by the two
sub-segments.  `fuel` bounds the recursion nesting (the partition cursor
`pi` satisfies `lo < pi ≤ lo + len - 1`, so both sub-segments are strictly
shorter and `len + 1` levels always suffice). -/
def npSegSort (v : List Int) : List Nat → Nat → Nat → Nat → Nat → List Nat
  | a, _, _, _, 0 => a
  | a, lo, len, depth, f + 1 =>
    if len ≤ 16 then
      segWrite a lo (argInsertionSort v (segExtract a lo len))
    else if depth = 0 then
      segWrite a lo (heapsortSeg v (segExtract a lo len))
    else
      let pl := lo
      let pr := lo + len - 1
      let pm := lo + (len - 1) / 2
      let a := med3Swap v a pl pm pr
      let vp := scoreOf v a pm
      let a := lswap a pm (pr - 1)
      let api := partLoop v vp a pl (pr - 1) len
      let a := lswap api.1 api.2 (pr - 1)
      let a := npSegSort v a pl (api.2 - pl) (depth - 1) f
      npSegSort v a (api.2 + 1) (pr - api.2) (depth - 1) f

/-- Position of the most significant bit (`npy_get_msb`), that is
`⌊log₂ n⌋` for positive `n`; computed with a fuel counter so that it
unfolds by plain reduction. -/
def npyGetMsbAux : Nat → Nat → Nat
  | _, 0 => 0
  | n, f + 1 => if n ≤ 1 then 0 else npyGetMsbAux (n / 2) f + 1

/-- Depth budget base `npy_get_msb(n)`. -/
def npyGetMsb (n : Nat) : Nat :=
  npyGetMsbAux n n

/-- Embedding of `np.argsort(v)` with the default `kind='quicksort'`: indirect introsort
of the identity permutation, with depth budget `2 * npy_get_msb(n)`. -/
def npArgsort (v : List Int) : List Nat :=
  npSegSort v (List.range v.length) 0 v.length (2 * npyGetMsb v.length) (v.length + 1)

/-! ## The scoring model and the engine

`ConiferestEngine` wraps an anomaly detector used through exactly three
capabilities: `train(data)`, `score(data)`, `observe(data, labels)`.  The
detector is stateful; `σ` is its (opaque) state. -/

/-- Capability record of the anomaly detector (`AADForestAnomalyDetector` /
`PineForestAnomalyDetector`), over an opaque state type `σ`. -/
structure Detector (σ : Type) where
  train : σ → List (List Int) → σ
  score : σ → List (List Int) → List Int
  observe : σ → List (List Int) → List Label → σ

/-- One interaction of the engine with its collaborators, recorded so that
theorems can speak about when the model is trained/scored/updated and when
the oracle (`click.confirm` in `_evaluate`) is queried. -/
inductive MCall where
  | train
  | observe (rows : List (List Int)) (labels : List Label)
  | score
  | oracle (oidName : Nat)
deriving DecidableEq, Repr

/-- How a run can abort: `stopIterationRE` is the `RuntimeError` that
PEP 479 raises when the `next(filter(...))` of `_run_interactive` finds no
candidate inside the generator; `indexError` is an out-of-bounds numpy
access. -/
inductive RunErr where
  | stopIterationRE
  | indexError
deriving DecidableEq, Repr

/-- Keys of the prior-answers dict (`answers.keys()`); `answers` itself is
`None` or the dict built by `load_answers`, modelled as an association
list in insertion order. -/
def answersKeys (answers : Option (List (Nat × Bool))) : List Nat :=
  (answers.getD []).map Prod.fst

/-- The emptiness test `answers is None or len(answers) == 0` of
`_handle_initial_knowns`. -/
def isEmptyAnswers (answers : Option (List (Nat × Bool))) : Bool :=
  (answers.getD []).isEmpty

/-- Row indices of `_handle_initial_knowns`:
`np.where(np.isin(oid, list(answers.keys())))[0]`, the ascending list of
row positions whose identity is a key of the prior-answers dict. -/
def locatedIndices (oid : List Nat) (ans : List (Nat × Bool)) : List Nat :=
  (List.range oid.length).filter (fun i => (ans.map Prod.fst).contains (oid.getD i 0))

/-- The batch `known_data = feature[known_indices]`.  The fancy index is
in bounds whenever `len(oid) == num_rows(feature)` (the alignment
invariant of the data model); out-of-range rows are totalised to `[]`. -/
def locatedData (oid : List Nat) (feature : List (List Int)) (ans : List (Nat × Bool)) :
    List (List Int) :=
  (locatedIndices oid ans).map (fun i => feature.getD i [])

/-- Label vector of `_handle_initial_knowns`, built by the two source lines
`known_labels = np.full(known_data.shape[0], Label.ANOMALY)` and
`known_labels[np.asarray(answers.values()) == 0] = Label.REGULAR`.
`answers.values()` is a `dict_values` view, not a sequence, so `np.asarray`
wraps the whole view in a zero-dimensional object array; comparing that
array with `0` evaluates `dict_values(...) == 0`, which is `False`, giving
the zero-dimensional mask `array(False)`; boolean indexing with that mask
selects an empty slice, so the `REGULAR` assignment rewrites no entry and
every located row keeps `Label.ANOMALY`. -/
def knownLabelsOf (numKnown : Nat) : List Label :=
  List.replicate numKnown Label.ANOMALY

/-- Embedding of `ConiferestEngine._handle_initial_knowns(oid, feature, answers)`.
Returns the detector state, the `known` dict
(`dict(zip(known_indices, known_labels))`, an association list in
ascending row order), and the trace of model calls made. -/
def handleInitialKnowns {σ : Type} (D : Detector σ) (st : σ) (oid : List Nat)
    (feature : List (List Int)) (answers : Option (List (Nat × Bool))) :
    σ × List (Nat × Label) × List MCall :=
  match answers with
  | none => (st, [], [])
  | some ans =>
    if ans.isEmpty then (st, [], [])
    else
      let dat := locatedData oid feature ans
      let labs := knownLabelsOf (locatedIndices oid ans).length
      (D.observe st dat labs, (locatedIndices oid ans).zip labs, [MCall.observe dat labs])

/-- Membership of a row index in the `known` dict (`idx not in known`). -/
def keyMem (i : Nat) (m : List (Nat × Label)) : Bool :=
  m.any (fun p => p.1 == i)

/-- One yielded step of `_run_interactive`, together with the `known` dict
as it stood when the iteration began. -/
structure IStep where
  sel : Nat
  selOid : Nat
  ans : Bool
  lab : Label
  knownBefore : List (Nat × Label)
deriving DecidableEq, Repr

/-- The records a list of interactive steps yields: `(a_oid, result)`. -/
def irecords (steps : List IStep) : List (Nat × Bool) :=
  steps.map (fun s => (s.selOid, s.ans))

/-- The loop body of `_run_interactive`, iterated a given number of times
(the clamped budget).  Per iteration: score all rows, argsort, take the
first index not in `known` (`next(filter(...))`; if none is left the
`StopIteration` escaping the generator body becomes a `RuntimeError` by
PEP 479), look up the identity, query the oracle (`_evaluate`), observe
the single labelled row, extend `known`, and yield.  The oracle is a
function of the query ordinal and the presented identity, so answers may
differ between calls.  numpy row lookups are checked and abort the run
with `indexError` when out of bounds. -/
def runInteractiveAux {σ : Type} (D : Detector σ) (oracle : Nat → Nat → Bool)
    (oid : List Nat) (feature : List (List Int)) :
    Nat → Nat → σ → List (Nat × Label) → List IStep × Option RunErr × List MCall
  | 0, _, _, _ => ([], none, [])
  | b + 1, q, st, known =>
    let scores := D.score st feature
    let idxs := npArgsort scores
    match idxs.find? (fun i => ! keyMem i known) with
    | none => ([], some RunErr.stopIterationRE, [MCall.score])
    | some a =>
      match oid[a]? with
      | none => ([], some RunErr.indexError, [MCall.score])
      | some aOid =>
        let res := oracle q aOid
        let lab := if res then Label.ANOMALY else Label.REGULAR
        match feature[a]? with
        | none => ([], some RunErr.indexError, [MCall.score, MCall.oracle aOid])
        | some row =>
          let rest := runInteractiveAux D oracle oid feature b (q + 1)
            (D.observe st [row] [lab]) (known ++ [(a, lab)])
          (⟨a, aOid, res, lab, known⟩ :: rest.1, rest.2.1,
            MCall.score :: MCall.oracle aOid :: MCall.observe [row] [lab] :: rest.2.2)

/-- Embedding of `_run_interactive(oid, feature, known)`, fully consumed: the budget is
clamped to the number of rows (`min(self._budget, feature.shape[0])`). -/
def runInteractive {σ : Type} (D : Detector σ) (oracle : Nat → Nat → Bool)
    (oid : List Nat) (feature : List (List Int)) (B : Nat) (st : σ)
    (known : List (Nat × Label)) : List IStep × Option RunErr × List MCall :=
  runInteractiveAux D oracle oid feature (min B feature.length) 0 st known

/-- The emission loop of `_run_non_interactive`: for each loop position,
read `scores_idx[i]`, then `oid[scores_idx[i]]`, and yield
`(a_oid, True)`; a failing lookup raises `IndexError`. -/
def nonInterEmit (oid idxs : List Nat) : List Nat → List (Nat × Bool) × Option RunErr
  | [] => ([], none)
  | p :: ps =>
    match idxs[p]? with
    | none => ([], some RunErr.indexError)
    | some ix =>
      match oid[ix]? with
      | none => ([], some RunErr.indexError)
      | some name =>
        let r := nonInterEmit oid idxs ps
        ((name, true) :: r.1, r.2)

/-- Embedding of `_run_non_interactive(oid, feature)`, fully consumed: clamp the budget,
score once, argsort once, emit the first `budget` positions of the
permutation. -/
def runNonInteractive {σ : Type} (D : Detector σ) (st : σ) (oid : List Nat)
    (feature : List (List Int)) (B : Nat) :
    List (Nat × Bool) × Option RunErr × List MCall :=
  let budget := min B feature.length
  let idxs := npArgsort (D.score st feature)
  let r := nonInterEmit oid idxs (List.range budget)
  (r.1, r.2, [MCall.score])

/-- The eager part of `ConiferestEngine.run`: train the model on the full
feature matrix, seed it with the prior answers.  Both happen during the
call to `run` itself; the returned generator has not started. -/
def runEager {σ : Type} (D : Detector σ) (st : σ) (oid : List Nat)
    (feature : List (List Int)) (answers : Option (List (Nat × Bool))) :
    σ × List (Nat × Label) × List MCall :=
  let st1 := D.train st feature
  let h := handleInitialKnowns D st1 oid feature answers
  (h.1, h.2.1, MCall.train :: h.2.2)

/-- Embedding of `ConiferestEngine.run(oid, feature, answers)` with its generator fully
consumed (what `main`'s `for` loop does).  Returns the result records, how
the run ended, and the trace of collaborator calls. -/
def engineRun {σ : Type} (D : Detector σ) (nonInteractive : Bool) (B : Nat)
    (oracle : Nat → Nat → Bool) (st : σ) (oid : List Nat)
    (feature : List (List Int)) (answers : Option (List (Nat × Bool))) :
    List (Nat × Bool) × Option RunErr × List MCall :=
  let e := runEager D st oid feature answers
  if nonInteractive then
    let r := runNonInteractive D e.1 oid feature B
    (r.1, r.2.1, e.2.2 ++ r.2.2)
  else
    let r := runInteractive D oracle oid feature B e.1 e.2.1
    (irecords r.1, r.2.1, e.2.2 ++ r.2.2)

/-- The generator `run` returns, with only `k` elements demanded,
interactive mode: the loop body runs once per demanded element (at most
the clamped budget many times); demanding past exhaustion performs no
further collaborator call. -/
def consumeInteractive {σ : Type} (D : Detector σ) (oracle : Nat → Nat → Bool)
    (oid : List Nat) (feature : List (List Int)) (B : Nat) (st : σ)
    (known : List (Nat × Label)) (k : Nat) :
    List IStep × Option RunErr × List MCall :=
  runInteractiveAux D oracle oid feature (min k (min B feature.length)) 0 st known

/-- The generator `run` returns, with only `k` elements demanded,
non-interactive mode: the generator body starts at the first demand (that
is when the single `score` call happens); with no demand nothing runs. -/
def consumeNonInteractive {σ : Type} (D : Detector σ) (st : σ) (oid : List Nat)
    (feature : List (List Int)) (B : Nat) (k : Nat) :
    List (Nat × Bool) × Option RunErr × List MCall :=
  if k = 0 then ([], none, [])
  else
    let budget := min B feature.length
    let idxs := npArgsort (D.score st feature)
    let r := nonInterEmit oid idxs (List.range (min k budget))
    (r.1, r.2, [MCall.score])

/-- Embedding of `ConiferestEngine.run` with only `k` elements of the returned lazy
sequence demanded: the eager phase always happens, the generator body only
as far as the demands reach. -/
def runConsume {σ : Type} (D : Detector σ) (nonInteractive : Bool) (B : Nat)
    (oracle : Nat → Nat → Bool) (st : σ) (oid : List Nat)
    (feature : List (List Int)) (answers : Option (List (Nat × Bool))) (k : Nat) :
    List (Nat × Bool) × Option RunErr × List MCall :=
  let e := runEager D st oid feature answers
  if nonInteractive then consumeNonInteractive D e.1 oid feature B k
  else
    let r := consumeInteractive D oracle oid feature B e.1 e.2.1 k
    (irecords r.1, r.2.1, r.2.2)

/-! ## ResultsSink -/

/-- An event on one of the sink's output files. -/
inductive FEvent where
  | write (s : String)
  | flush
deriving DecidableEq, Repr

/-- The two open streams of a `ResultsSink`: the anomalies file, and the
optional answers file (present when an answers path was supplied). -/
structure SinkState where
  anomalies : List FEvent
  answers : Option (List FEvent)
deriving DecidableEq, Repr

/-- Embedding of `ResultsSink._handle_anomaly(name, decision)`: on a positive decision,
append the identity and flush; otherwise do nothing. -/
def handleAnomaly (sk : SinkState) (name : Nat) (decision : Bool) : SinkState :=
  if decision then
    { sk with anomalies :=
        sk.anomalies ++ [FEvent.write (toString name ++ "\n"), FEvent.flush] }
  else sk

/-- Embedding of `ResultsSink._handle_answer(name, decision)`: if the answers stream is
open, append `"{},{:b}\n".format(name, decision)` and flush (Python
formats `True` as `1` and `False` as `0`). -/
def handleAnswer (sk : SinkState) (name : Nat) (decision : Bool) : SinkState :=
  match sk.answers with
  | none => sk
  | some l =>
    let l2 := l ++ [FEvent.write (toString name ++ "," ++
      (if decision then "1" else "0") ++ "\n"), FEvent.flush]
    { sk with answers := some l2 }

/-- Embedding of `ResultsSink.__call__(name, decision)`: `_handle_anomaly` then
`_handle_answer`. -/
def sinkCall (sk : SinkState) (name : Nat) (decision : Bool) : SinkState :=
  handleAnswer (handleAnomaly sk name decision) name decision

/-- State of one sink target after construction. -/
inductive TargetState where
  | notOpened
  | opened
  | closed
deriving DecidableEq, Repr

/-- Result of running `ResultsSink.__init__`. -/
structure SinkInit where
  anomaliesTarget : TargetState
  answersTarget : TargetState
  raised : Bool
deriving DecidableEq, Repr

/-- Embedding of `ResultsSink.__init__(anomalies_filename, answers_filename)`, with the
outcome of each I/O step injected: whether the anomalies `open` succeeds,
whether an answers path was supplied, whether the answers `open` succeeds,
and whether the header write succeeds.  The body runs under
`try: ... except: self._cleanup()`, so any failure closes whatever was
already opened (`_cleanup` closes the non-`None` handles) and the
exception is swallowed: the constructor always returns normally. -/
def sinkInit (anomOpenOk answersRequested ansOpenOk headerOk : Bool) : SinkInit :=
  if !anomOpenOk then
    { anomaliesTarget := TargetState.notOpened, answersTarget := TargetState.notOpened,
      raised := false }
  else if !answersRequested then
    { anomaliesTarget := TargetState.opened, answersTarget := TargetState.notOpened,
      raised := false }
  else if !ansOpenOk then
    { anomaliesTarget := TargetState.closed, answersTarget := TargetState.notOpened,
      raised := false }
  else if !headerOk then
    { anomaliesTarget := TargetState.closed, answersTarget := TargetState.closed,
      raised := false }
  else
    { anomaliesTarget := TargetState.opened, answersTarget := TargetState.opened,
      raised := false }

/-- Whether every I/O step of the constructor succeeded. -/
def sinkConstructionOk (anomOpenOk answersRequested ansOpenOk headerOk : Bool) : Bool :=
  anomOpenOk && (!answersRequested || (ansOpenOk && headerOk))

/-! ## Auxiliary notions for the theorems -/

/-- Ascending score with the original row position as tie break: the order
in which a stable ascending argsort ranks row indices (the spec's
"ascending sort permutation of scores, ties broken by original row
order"). -/
def stableLe (v : List Int) (i j : Nat) : Prop :=
  v.getD i 0 < v.getD j 0 ∨ (v.getD i 0 = v.getD j 0 ∧ i ≤ j)

instance (v : List Int) (i j : Nat) : Decidable (stableLe v i j) := by
  unfold stableLe
  infer_instance

/-- Checker for the interactive `known`-dict discipline: starting from a
given dict, every recorded step began from exactly the current dict, chose
a row not yet in it, and the dict then grew by exactly that row's entry
and nothing else. -/
def knownChainOk (known0 : List (Nat × Label)) : List IStep → Bool
  | [] => true
  | s :: rest =>
    decide (s.knownBefore = known0) && !keyMem s.sel known0 &&
      knownChainOk (known0 ++ [(s.sel, s.lab)]) rest

/-- Stateless detector whose score vector is `[0]`: one row scored. -/
def cDet1 : Detector Unit :=
  ⟨fun _ _ => (), fun _ _ => [0], fun s _ _ => s⟩

/-- Stateless detector whose score vector is `[0, 1]`: two rows scored. -/
def cDet2 : Detector Unit :=
  ⟨fun _ _ => (), fun _ _ => [0, 1], fun s _ _ => s⟩

/-- Stateless detector whose score vector is 18 tied scores. -/
def cDet18 : Detector Unit :=
  ⟨fun _ _ => (), fun _ _ => List.replicate 18 0, fun s _ _ => s⟩

/-- Stateless detector scoring every row `0` (one score per row). -/
def witDet : Detector Unit :=
  ⟨fun _ _ => (), fun _ rows => rows.map (fun _ => 0), fun s _ _ => s⟩

/-- Stateless detector scoring each row by its first feature. -/
def witDetHead : Detector Unit :=
  ⟨fun _ _ => (), fun _ rows => rows.map (fun r => r.getD 0 0), fun s _ _ => s⟩

/-! ## Structural lemmas about `npArgsort`

The permutation array keeps its length through every phase of the sort,
and all its entries are positions below the score array's length.  These
two facts make every `scores_idx[i]` and `oid[scores_idx[i]]` access of
the loops well defined under the alignment invariant. -/

theorem lswap_length (a : List Nat) (i j : Nat) : (lswap a i j).length = a.length := by
  unfold lswap
  split <;> simp

theorem iteLswap_length (a : List Nat) (c : Prop) [Decidable c] (i j : Nat) :
    (if c then lswap a i j else a).length = a.length := by
  split <;> simp [lswap_length]

theorem med3Swap_length (v : List Int) (a : List Nat) (pl pm pr : Nat) :
    (med3Swap v a pl pm pr).length = a.length := by
  simp only [med3Swap]
  rw [iteLswap_length, iteLswap_length, iteLswap_length]

theorem partLoop_length (v : List Int) (vp : Int) :
    ∀ (f : Nat) (a : List Nat) (i j : Nat), (partLoop v vp a i j f).1.length = a.length
  | 0, _, _, _ => rfl
  | f + 1, a, i, j => by
    simp only [partLoop]
    split
    · rfl
    · rw [partLoop_length v vp f, lswap_length]

theorem hSet_length (s : List Nat) (k x : Nat) : (hSet s k x).length = s.length := by
  simp [hSet]

theorem siftDown_length (v : List Int) (tmp : Nat) :
    ∀ (f : Nat) (s : List Nat) (i j n : Nat), (siftDown v tmp s i j n f).length = s.length
  | 0, s, i, _, _ => hSet_length s i tmp
  | f + 1, s, i, j, n => by
    simp only [siftDown]
    split
    · split <;> split <;> first
        | rw [siftDown_length v tmp f, hSet_length]
        | exact hSet_length ..
    · exact hSet_length ..

theorem heapifyLoop_length (v : List Int) (n : Nat) :
    ∀ (c : Nat) (s : List Nat), (heapifyLoop v n s c).length = s.length
  | 0, _ => rfl
  | c + 1, s => by
    simp only [heapifyLoop]
    rw [heapifyLoop_length v n c, siftDown_length]

theorem heapExtract_length (v : List Int) :
    ∀ (n : Nat) (s : List Nat), (heapExtract v s n).length = s.length
  | 0, _ => rfl
  | 1, _ => rfl
  | n + 2, s => by
    simp only [heapExtract]
    rw [heapExtract_length v (n + 1), siftDown_length, hSet_length]

theorem heapsortSeg_length (v : List Int) (s : List Nat) :
    (heapsortSeg v s).length = s.length := by
  unfold heapsortSeg
  rw [heapExtract_length, heapifyLoop_length]

theorem argInsertOne_perm (v : List Int) (x : Nat) :
    ∀ l, (argInsertOne v x l).Perm (x :: l)
  | [] => List.Perm.refl _
  | y :: ys => by
    simp only [argInsertOne]
    split
    · exact ((argInsertOne_perm v x ys).cons y).trans (List.Perm.swap x y ys)
    · exact List.Perm.refl _

theorem argInsertionSort_foldl_perm (v : List Int) :
    ∀ (l acc : List Nat), (l.foldl (fun acc x => argInsertOne v x acc) acc).Perm (acc ++ l)
  | [], acc => by simp
  | x :: xs, acc => by
    simp only [List.foldl_cons]
    refine (argInsertionSort_foldl_perm v xs _).trans ?_
    refine (List.Perm.append_right xs (argInsertOne_perm v x acc)).trans ?_
    exact List.perm_middle.symm

theorem argInsertionSort_perm (v : List Int) (l : List Nat) :
    (argInsertionSort v l).Perm l := by
  simpa using argInsertionSort_foldl_perm v l []

theorem argInsertionSort_length (v : List Int) (l : List Nat) :
    (argInsertionSort v l).length = l.length :=
  (argInsertionSort_perm v l).length_eq

theorem segExtract_length (a : List Nat) (lo len : Nat) :
    (segExtract a lo len).length = min len (a.length - lo) := by
  simp [segExtract]

theorem segWrite_length (a s : List Nat) (lo len : Nat)
    (h : s.length = (segExtract a lo len).length) :
    (segWrite a lo s).length = a.length := by
  rw [segExtract_length] at h
  simp only [segWrite, List.length_append, List.length_take, List.length_drop]
  omega

theorem npSegSort_length (v : List Int) :
    ∀ (f : Nat) (a : List Nat) (lo len depth : Nat),
      (npSegSort v a lo len depth f).length = a.length
  | 0, _, _, _, _ => rfl
  | f + 1, a, lo, len, depth => by
    simp only [npSegSort]
    split
    · exact segWrite_length _ _ _ len (by rw [argInsertionSort_length])
    · split
      · exact segWrite_length _ _ _ len (by rw [heapsortSeg_length])
      · rw [npSegSort_length v f, npSegSort_length v f, lswap_length, partLoop_length,
          lswap_length, med3Swap_length]

theorem npArgsort_length (v : List Int) : (npArgsort v).length = v.length := by
  unfold npArgsort
  rw [npSegSort_length, List.length_range]

theorem getD_mem_of_lt {a : List Nat} {j : Nat} (h : j < a.length) : a.getD j 0 ∈ a := by
  simp only [List.getD_eq_getElem?_getD, List.getElem?_eq_getElem h, Option.getD_some]
  exact List.getElem_mem h

theorem mem_lswap {a : List Nat} {i j x : Nat} (h : x ∈ lswap a i j) : x ∈ a := by
  unfold lswap at h
  split at h
  · rename_i hb
    rcases List.mem_or_eq_of_mem_set h with h2 | h2
    · rcases List.mem_or_eq_of_mem_set h2 with h3 | h3
      · exact h3
      · exact h3 ▸ getD_mem_of_lt hb.2
    · exact h2 ▸ getD_mem_of_lt hb.1
  · exact h

theorem mem_iteLswap {a : List Nat} {c : Prop} [Decidable c] {i j x : Nat}
    (h : x ∈ if c then lswap a i j else a) : x ∈ a := by
  split at h
  · exact mem_lswap h
  · exact h

theorem mem_med3Swap {v : List Int} {a : List Nat} {pl pm pr x : Nat}
    (h : x ∈ med3Swap v a pl pm pr) : x ∈ a := by
  simp only [med3Swap] at h
  exact mem_iteLswap (mem_iteLswap (mem_iteLswap h))

theorem mem_partLoop (v : List Int) (vp : Int) :
    ∀ (f : Nat) (a : List Nat) (i j x : Nat), x ∈ (partLoop v vp a i j f).1 → x ∈ a
  | 0, _, _, _, _ => fun h => h
  | f + 1, a, i, j, x => by
    simp only [partLoop]
    split
    · exact fun h => h
    · exact fun h => mem_lswap (mem_partLoop v vp f _ _ _ x h)

theorem hGet_lt {s : List Nat} {n : Nat} (k : Nat) (hs : ∀ x ∈ s, x < n) (hn : 0 < n) :
    hGet s k < n := by
  unfold hGet
  by_cases hk : k - 1 < s.length
  · exact hs _ (getD_mem_of_lt hk)
  · rw [List.getD_eq_default _ _ (Nat.le_of_not_lt hk)]
    exact hn

theorem hSet_lt {s : List Nat} {n k y : Nat} (hs : ∀ x ∈ s, x < n) (hy : y < n) :
    ∀ x ∈ hSet s k y, x < n := by
  intro x hx
  rcases List.mem_or_eq_of_mem_set hx with h | h
  · exact hs x h
  · exact h ▸ hy

theorem siftDown_lt (v : List Int) {n : Nat} (hn : 0 < n) :
    ∀ (f : Nat) (tmp : Nat) (s : List Nat) (i j m : Nat), tmp < n → (∀ x ∈ s, x < n) →
      ∀ x ∈ siftDown v tmp s i j m f, x < n
  | 0, tmp, s, i, _, _, htmp, hs => hSet_lt hs htmp
  | f + 1, tmp, s, i, j, m, htmp, hs => by
    simp only [siftDown]
    split
    · split <;> split <;> first
        | exact siftDown_lt v hn f _ _ _ _ _ htmp (hSet_lt hs (hGet_lt _ hs hn))
        | exact hSet_lt hs htmp
    · exact hSet_lt hs htmp

theorem heapifyLoop_lt (v : List Int) {n : Nat} (hn : 0 < n) (m : Nat) :
    ∀ (c : Nat) (s : List Nat), (∀ x ∈ s, x < n) → ∀ x ∈ heapifyLoop v m s c, x < n
  | 0, _, hs => hs
  | c + 1, s, hs => by
    simp only [heapifyLoop]
    exact heapifyLoop_lt v hn m c _
      (siftDown_lt v hn _ _ _ _ _ _ (hGet_lt _ hs hn) hs)

theorem heapExtract_lt (v : List Int) {n : Nat} (hn : 0 < n) :
    ∀ (m : Nat) (s : List Nat), (∀ x ∈ s, x < n) → ∀ x ∈ heapExtract v s m, x < n
  | 0, _, hs => hs
  | 1, _, hs => hs
  | m + 2, s, hs => by
    simp only [heapExtract]
    exact heapExtract_lt v hn (m + 1) _
      (siftDown_lt v hn _ _ _ _ _ _ (hGet_lt _ hs hn) (hSet_lt hs (hGet_lt _ hs hn)))

theorem heapsortSeg_lt (v : List Int) {n : Nat} (hn : 0 < n) {s : List Nat}
    (hs : ∀ x ∈ s, x < n) : ∀ x ∈ heapsortSeg v s, x < n := by
  unfold heapsortSeg
  exact heapExtract_lt v hn _ _ (heapifyLoop_lt v hn _ _ _ hs)

theorem mem_segExtract {a : List Nat} {lo len x : Nat} (h : x ∈ segExtract a lo len) :
    x ∈ a :=
  List.drop_subset lo a (List.take_subset _ _ h)

theorem mem_segWrite {a s : List Nat} {lo x : Nat} (h : x ∈ segWrite a lo s) :
    x ∈ a ∨ x ∈ s := by
  simp only [segWrite, List.mem_append] at h
  rcases h with (h | h) | h
  · exact Or.inl (List.take_subset _ _ h)
  · exact Or.inr h
  · exact Or.inl (List.drop_subset _ _ h)

theorem npSegSort_lt (v : List Int) {n : Nat} (hn : 0 < n) :
    ∀ (f : Nat) (a : List Nat) (lo len depth : Nat), (∀ x ∈ a, x < n) →
      ∀ x ∈ npSegSort v a lo len depth f, x < n
  | 0, _, _, _, _, ha => ha
  | f + 1, a, lo, len, depth, ha => by
    simp only [npSegSort]
    split
    · intro x hx
      rcases mem_segWrite hx with h | h
      · exact ha x h
      · exact ha x (mem_segExtract ((argInsertionSort_perm v _).mem_iff.mp h))
    · split
      · intro x hx
        rcases mem_segWrite hx with h | h
        · exact ha x h
        · exact heapsortSeg_lt v hn (fun y hy => ha y (mem_segExtract hy)) x h
      · refine npSegSort_lt v hn f _ _ _ _ (npSegSort_lt v hn f _ _ _ _ ?_)
        intro x hx
        exact ha x (mem_med3Swap (mem_lswap (mem_partLoop v _ _ _ _ _ _ (mem_lswap hx))))

theorem npArgsort_lt (v : List Int) : ∀ x ∈ npArgsort v, x < v.length := by
  rcases Nat.eq_zero_or_pos v.length with h0 | hpos
  · intro x hx
    have := npArgsort_length v
    rw [h0] at this
    rw [List.length_eq_zero.mp this] at hx
    simp at hx
  · unfold npArgsort
    exact npSegSort_lt v hpos _ _ _ _ _ (fun x hx => List.mem_range.mp hx)

/-! ## Stability of the small-segment insertion sort

For at most `SMALL_QUICKSORT + 1 = 16` score values the introsort never
partitions: it is exactly one insertion sort of the identity permutation,
which sorts the row indices by ascending score with the original row order
as the tie break. -/

theorem stableLe_le {v : List Int} {i j : Nat} (h : stableLe v i j) :
    v.getD i 0 ≤ v.getD j 0 := by
  rcases h with h | ⟨h, _⟩
  · exact le_of_lt h
  · exact le_of_eq h

theorem argInsertOne_sorted {v : List Int} {x : Nat} :
    ∀ {l : List Nat}, List.Sorted (stableLe v) l → (∀ y ∈ l, y < x) →
      List.Sorted (stableLe v) (argInsertOne v x l)
  | [], _, _ => List.sorted_singleton x
  | y :: ys, hs, hb => by
    simp only [argInsertOne]
    rw [List.sorted_cons] at hs
    split
    · rename_i hle
      rw [List.sorted_cons]
      constructor
      · intro z hz
        rcases List.mem_cons.mp ((argInsertOne_perm v x ys).mem_iff.mp hz) with hz2 | hz2
        · subst hz2
          rcases lt_or_eq_of_le hle with h | h
          · exact Or.inl h
          · exact Or.inr ⟨h, Nat.le_of_lt (hb y (List.mem_cons_self y ys))⟩
        · exact hs.1 z hz2
      · exact argInsertOne_sorted hs.2 (fun z hz => hb z (List.mem_cons_of_mem y hz))
    · rename_i hgt
      rw [Int.not_le] at hgt
      rw [List.sorted_cons]
      refine ⟨fun z hz => ?_, List.sorted_cons.mpr hs⟩
      rcases List.mem_cons.mp hz with hz | hz
      · exact Or.inl (hz ▸ hgt)
      · exact Or.inl (lt_of_lt_of_le hgt (stableLe_le (hs.1 z hz)))

theorem argInsertionSort_foldl_sorted {v : List Int} :
    ∀ (l : List Nat) (acc : List Nat), List.Sorted (stableLe v) acc →
      List.Pairwise (· < ·) l → (∀ y ∈ acc, ∀ x ∈ l, y < x) →
      List.Sorted (stableLe v) (l.foldl (fun acc x => argInsertOne v x acc) acc)
  | [], acc, hacc, _, _ => hacc
  | x :: xs, acc, hacc, hl, hb => by
    simp only [List.foldl_cons]
    rw [List.pairwise_cons] at hl
    refine argInsertionSort_foldl_sorted xs _ ?_ hl.2 ?_
    · exact argInsertOne_sorted hacc (fun y hy => hb y hy x (List.mem_cons_self x xs))
    · intro y hy z hz
      rcases List.mem_cons.mp ((argInsertOne_perm v x acc).mem_iff.mp hy) with hy2 | hy2
      · exact hy2 ▸ hl.1 z hz
      · exact hb y hy2 z (List.mem_cons_of_mem x hz)

theorem argInsertionSort_range_sorted (v : List Int) (n : Nat) :
    List.Sorted (stableLe v) (argInsertionSort v (List.range n)) := by
  unfold argInsertionSort
  exact argInsertionSort_foldl_sorted _ [] (List.sorted_nil)
    (List.pairwise_lt_range n) (by simp)

theorem npArgsort_eq_insertion (v : List Int) (h : v.length ≤ 16) :
    npArgsort v = argInsertionSort v (List.range v.length) := by
  unfold npArgsort
  simp only [npSegSort]
  rw [if_pos h]
  have he : segExtract (List.range v.length) 0 v.length = List.range v.length := by
    simp [segExtract, List.take_of_length_le]
  rw [he]
  unfold segWrite
  simp [argInsertionSort_length, List.drop_of_length_le]

theorem npArgsort_sorted_of_le16 (v : List Int) (h : v.length ≤ 16) :
    List.Sorted (stableLe v) (npArgsort v) := by
  rw [npArgsort_eq_insertion v h]
  exact argInsertionSort_range_sorted v v.length

theorem npArgsort_perm_of_le16 (v : List Int) (h : v.length ≤ 16) :
    (npArgsort v).Perm (List.range v.length) := by
  rw [npArgsort_eq_insertion v h]
  exact argInsertionSort_perm v (List.range v.length)

/-! ## The non-interactive emission loop -/

theorem nonInterEmit_ok {oid idxs : List Nat} :
    ∀ {ps : List Nat}, (∀ p ∈ ps, p < idxs.length) → (∀ x ∈ idxs, x < oid.length) →
      nonInterEmit oid idxs ps
        = (ps.map (fun p => (oid.getD (idxs.getD p 0) 0, true)), none)
  | [], _, _ => rfl
  | p :: ps, hp, hx => by
    simp only [nonInterEmit]
    have h1 : p < idxs.length := hp p (List.mem_cons_self p ps)
    have h2 : idxs[p] < oid.length := hx _ (List.getElem_mem h1)
    rw [List.getElem?_eq_getElem h1]
    simp only
    rw [List.getElem?_eq_getElem h2]
    simp only
    rw [nonInterEmit_ok (fun q hq => hp q (List.mem_cons_of_mem p hq)) hx]
    simp [List.getD_eq_getElem?_getD, List.getElem?_eq_getElem, h1, h2]

theorem take_eq_range_map {l : List Nat} {k : Nat} (h : k ≤ l.length) :
    l.take k = (List.range k).map (fun p => l.getD p 0) := by
  apply List.ext_getElem
  · simp [Nat.min_eq_left h]
  · intro i h1 h2
    rw [List.getElem_take]
    rw [List.getElem_map]
    rw [List.getElem_range]
    have hi : i < l.length := by
      simp at h1
      omega
    simp [List.getD_eq_getElem?_getD, List.getElem?_eq_getElem hi]

/-- C1.  In non-interactive mode, under the collaborator contracts that the
model returns one score per row and that identities align with the feature
rows, `run` yields exactly `min(B, N)` records, each `(identity, True)`,
and ends normally (a budget larger than `N` is clamped, never an error). -/
theorem nonInteractive_budget_clamp {σ : Type} (D : Detector σ) (B : Nat)
    (oracle : Nat → Nat → Bool) (st : σ) (oid : List Nat) (feature : List (List Int))
    (answers : Option (List (Nat × Bool)))
    (hs : ∀ s : σ, (D.score s feature).length = feature.length)
    (ho : oid.length = feature.length) :
    (engineRun D true B oracle st oid feature answers).1.length = min B feature.length ∧
    (engineRun D true B oracle st oid feature answers).1.all (fun r => r.2) = true ∧
    (engineRun D true B oracle st oid feature answers).2.1 = none := by
  unfold engineRun runNonInteractive
  simp only [if_pos]
  rw [nonInterEmit_ok]
  · refine ⟨by simp, ?_, rfl⟩
    simp [List.all_eq_true]
  · intro p hp
    rw [npArgsort_length, hs]
    rw [List.mem_range] at hp
    omega
  · intro x hxm
    have := npArgsort_lt _ x hxm
    rw [hs] at this
    omega

/-- Closed instance of `nonInteractive_budget_clamp`: three rows, budget
five, the emission is clamped to three records, all positive. -/
theorem nonInteractive_budget_clamp_witness :
    (engineRun witDet true 5 (fun _ _ => true) () [10, 20, 30] [[1], [2], [3]] none).1.length
        = min 5 3 ∧
    (engineRun witDet true 5 (fun _ _ => true) () [10, 20, 30] [[1], [2], [3]] none).1.all
        (fun r => r.2) = true ∧
    (engineRun witDet true 5 (fun _ _ => true) () [10, 20, 30] [[1], [2], [3]] none).2.1
        = none :=
  nonInteractive_budget_clamp witDet 5 (fun _ _ => true) () [10, 20, 30]
    [[1], [2], [3]] none (fun s => by simp [witDet]) rfl

/-- C4 (amended).  For feature matrices of at most 16 rows numpy's default
argsort is one insertion sort, so the selection permutation is the
ascending sort of the scores with ties in original row order (sorted under
`stableLe` and a permutation of the row indices), and the non-interactive
emission is exactly the first `min(B, N)` entries of that permutation.
For larger matrices the introsort partition step reorders ties, see the
counterexample. -/
theorem nonInteractive_stable_order_le16 {σ : Type} (D : Detector σ) (B : Nat)
    (oracle : Nat → Nat → Bool) (st : σ) (oid : List Nat) (feature : List (List Int))
    (answers : Option (List (Nat × Bool)))
    (hs : ∀ s : σ, (D.score s feature).length = feature.length)
    (ho : oid.length = feature.length)
    (h17 : feature.length ≤ 16) :
    List.Sorted (stableLe (D.score (runEager D st oid feature answers).1 feature))
      (npArgsort (D.score (runEager D st oid feature answers).1 feature)) ∧
    (npArgsort (D.score (runEager D st oid feature answers).1 feature)).Perm
      (List.range feature.length) ∧
    (engineRun D true B oracle st oid feature answers).1
      = ((npArgsort (D.score (runEager D st oid feature answers).1 feature)).take
          (min B feature.length)).map (fun i => (oid.getD i 0, true)) := by
  have hv : (D.score (runEager D st oid feature answers).1 feature).length
      = feature.length := hs _
  refine ⟨npArgsort_sorted_of_le16 _ (by omega), ?_, ?_⟩
  · have hp := npArgsort_perm_of_le16
      (D.score (runEager D st oid feature answers).1 feature) (by omega)
    rwa [hv] at hp
  · have hlen : (npArgsort (D.score (runEager D st oid feature answers).1 feature)).length
        = feature.length := by rw [npArgsort_length, hv]
    unfold engineRun runNonInteractive
    simp only [if_pos]
    rw [nonInterEmit_ok]
    · rw [take_eq_range_map (by omega), List.map_map]
      rfl
    · intro p hp
      rw [List.mem_range] at hp
      omega
    · intro x hxm
      have := npArgsort_lt _ x hxm
      omega

/-- Closed instance of `nonInteractive_stable_order_le16`: scores `[5,1,1]`
contain a tie, the permutation is `[1,2,0]` (stable) and the two emitted
records follow it. -/
theorem nonInteractive_stable_order_le16_witness :
    List.Sorted (stableLe (witDetHead.score (runEager witDetHead () [10, 20, 30]
        [[5], [1], [1]] none).1 [[5], [1], [1]]))
      (npArgsort (witDetHead.score (runEager witDetHead () [10, 20, 30]
        [[5], [1], [1]] none).1 [[5], [1], [1]])) ∧
    (npArgsort (witDetHead.score (runEager witDetHead () [10, 20, 30]
        [[5], [1], [1]] none).1 [[5], [1], [1]])).Perm (List.range 3) ∧
    (engineRun witDetHead true 2 (fun _ _ => true) () [10, 20, 30]
        [[5], [1], [1]] none).1
      = ((npArgsort (witDetHead.score (runEager witDetHead () [10, 20, 30]
          [[5], [1], [1]] none).1 [[5], [1], [1]])).take
            (min 2 3)).map (fun i => ([10, 20, 30].getD i 0, true)) :=
  nonInteractive_stable_order_le16 witDetHead 2 (fun _ _ => true) () [10, 20, 30]
    [[5], [1], [1]] none (fun s => by simp [witDetHead]) rfl (by decide)

/-- C4 counterexample.  With 18 rows and all scores equal (every row tied)
the emitted order of a non-interactive run is not the original row order:
numpy's default argsort partitions 18-element arrays and its exchange loop
reverses the relative order of tied rows, so the selection permutation is
not stable as claimed. -/
theorem nonInteractive_stable_order_cex :
    cDet18.score (runEager cDet18 () (List.range 18) (List.replicate 18 ([] : List Int))
        none).1 (List.replicate 18 ([] : List Int)) = List.replicate 18 0 ∧
    (engineRun cDet18 true 18 (fun _ _ => true) () (List.range 18)
        (List.replicate 18 ([] : List Int)) none).1.map Prod.fst
      ≠ List.range 18 := by decide

/-! ## The interactive loop: the `known` dict -/

theorem keyMem_append (i : Nat) (m1 m2 : List (Nat × Label)) :
    keyMem i (m1 ++ m2) = (keyMem i m1 || keyMem i m2) := by
  simp [keyMem, List.any_append]

theorem mem_zip_replicate {α β : Type} {l : List α} {i : α} (h : i ∈ l) (x : β) :
    (i, x) ∈ l.zip (List.replicate l.length x) := by
  induction l with
  | nil => simp at h
  | cons a as ih =>
    rw [List.length_cons, List.replicate_succ, List.zip_cons_cons]
    rcases List.mem_cons.mp h with h2 | h2
    · subst h2
      exact List.mem_cons_self _ _
    · exact List.mem_cons_of_mem _ (ih h2)

theorem handleInitialKnowns_keyMem {σ : Type} (D : Detector σ) (st : σ) (oid : List Nat)
    (feature : List (List Int)) (answers : Option (List (Nat × Bool)))
    {i : Nat} (hi : i < oid.length) (hmem : oid.getD i 0 ∈ answersKeys answers) :
    keyMem i (handleInitialKnowns D st oid feature answers).2.1 = true := by
  cases answers with
  | none => simp [answersKeys] at hmem
  | some ans =>
    by_cases he : ans.isEmpty
    · simp [answersKeys, List.isEmpty_iff.mp he] at hmem
    · simp only [handleInitialKnowns, if_neg he]
      have hil : i ∈ locatedIndices oid ans := by
        simp only [locatedIndices, List.mem_filter, List.mem_range]
        refine ⟨hi, ?_⟩
        simp only [answersKeys, Option.getD_some] at hmem
        simpa using hmem
      simp only [keyMem, List.any_eq_true]
      refine ⟨(i, Label.ANOMALY), ?_, by simp⟩
      unfold knownLabelsOf
      exact mem_zip_replicate hil Label.ANOMALY

theorem runInteractiveAux_oid_not_known {σ : Type} (D : Detector σ)
    (oracle : Nat → Nat → Bool) (oid : List Nat) (feature : List (List Int))
    (keys : List Nat) :
    ∀ (b q : Nat) (st : σ) (known : List (Nat × Label)),
      (∀ i, i < oid.length → oid.getD i 0 ∈ keys → keyMem i known = true) →
      ∀ s ∈ (runInteractiveAux D oracle oid feature b q st known).1, s.selOid ∉ keys
  | 0, _, _, _, _ => by simp [runInteractiveAux]
  | b + 1, q, st, known, hk => by
    intro s hs
    simp only [runInteractiveAux] at hs
    split at hs
    · simp at hs
    · rename_i a hf
      split at hs
      · simp at hs
      · rename_i aOid hoid
        split at hs
        · simp at hs
        · rename_i row hfeat
          rcases List.mem_cons.mp hs with hs2 | hs2
          · subst hs2
            intro hmem
            obtain ⟨ha, hgd⟩ := List.getElem?_eq_some.mp hoid
            have hgd2 : oid.getD a 0 = aOid := by
              simp [List.getD_eq_getElem?_getD, hoid]
            have hkm := hk a ha (hgd2 ▸ hmem)
            have hff := List.find?_some hf
            rw [hkm] at hff
            simp at hff
          · refine runInteractiveAux_oid_not_known D oracle oid feature keys b (q + 1)
              _ _ ?_ s hs2
            intro i hi hmem
            rw [keyMem_append, hk i hi hmem]
            rfl

/-- C2 (amended).  In interactive mode no identity that is a key of the
prior-answers map is ever emitted: the seeding marks every located row as
known, the `known` dict only grows, and the selection step skips known
rows.  (In non-interactive mode known rows are not excluded, see the
counterexample.) -/
theorem interactive_no_reported_priors {σ : Type} (D : Detector σ)
    (oracle : Nat → Nat → Bool) (st : σ) (oid : List Nat) (feature : List (List Int))
    (B : Nat) (answers : Option (List (Nat × Bool))) :
    ∀ rec ∈ (engineRun D false B oracle st oid feature answers).1,
      rec.1 ∉ answersKeys answers := by
  intro rec hrec
  simp only [engineRun, Bool.false_eq_true, if_false, irecords, List.mem_map] at hrec
  obtain ⟨s, hs, hrfl⟩ := hrec
  have hres := runInteractiveAux_oid_not_known D oracle oid feature (answersKeys answers)
    (min B feature.length) 0 _ _ ?_ s hs
  · rw [← hrfl]
    exact hres
  · intro i hi hmem
    exact handleInitialKnowns_keyMem D _ oid feature answers hi hmem

/-- Closed instance of `interactive_no_reported_priors`: an interactive
run over rows 10 and 20 where 10 has a prior answer emits the record
`(20, true)`, whose identity is not a prior-answer key. -/
theorem interactive_no_reported_priors_witness :
    10 ∈ answersKeys (some [(10, true)]) ∧
    (20, true) ∈ (engineRun cDet2 false 1 (fun _ _ => true) () [10, 20] [[0], [1]]
      (some [(10, true)])).1 ∧
    (20, true).1 ∉ answersKeys (some [(10, true)]) :=
  ⟨by decide, by decide,
    interactive_no_reported_priors cDet2 (fun _ _ => true) () [10, 20] [[0], [1]] 1
      (some [(10, true)]) (20, true) (by decide)⟩

/-- C2 counterexample.  A non-interactive run: identity 10 has a prior
answer, yet the run emits it (the non-interactive path has no skip
logic). -/
theorem no_reported_priors_cex :
    10 ∈ answersKeys (some [(10, true)]) ∧
    (10, true) ∈ (engineRun cDet2 true 2 (fun _ _ => true) () [10, 20] [[0], [1]]
      (some [(10, true)])).1 := by decide

theorem runInteractiveAux_chainOk {σ : Type} (D : Detector σ) (oracle : Nat → Nat → Bool)
    (oid : List Nat) (feature : List (List Int)) :
    ∀ (b q : Nat) (st : σ) (known : List (Nat × Label)),
      knownChainOk known (runInteractiveAux D oracle oid feature b q st known).1 = true
  | 0, _, _, _ => rfl
  | b + 1, q, st, known => by
    simp only [runInteractiveAux]
    split
    · rfl
    · rename_i a hf
      split
      · rfl
      · rename_i aOid hoid
        split
        · rfl
        · rename_i row hfeat
          simp only [knownChainOk, Bool.and_eq_true, decide_eq_true_eq]
          refine ⟨⟨by trivial, ?_⟩, runInteractiveAux_chainOk D oracle oid feature b (q + 1) _ _⟩
          simpa using List.find?_some hf

theorem chainOk_nodup :
    ∀ (steps : List IStep) (known : List (Nat × Label)),
      knownChainOk known steps = true →
      (steps.map IStep.sel).Nodup ∧ ∀ x ∈ steps.map IStep.sel, keyMem x known = false
  | [], _, _ => ⟨List.nodup_nil, by simp⟩
  | s :: rest, known, h => by
    simp only [knownChainOk, Bool.and_eq_true, decide_eq_true_eq,
      Bool.not_eq_true'] at h
    obtain ⟨⟨_, hk⟩, hrest⟩ := h
    obtain ⟨ihn, ihb⟩ := chainOk_nodup rest (known ++ [(s.sel, s.lab)]) hrest
    constructor
    · rw [List.map_cons, List.nodup_cons]
      refine ⟨fun hmem => ?_, ihn⟩
      have hb := ihb s.sel hmem
      rw [keyMem_append] at hb
      simp [keyMem] at hb
    · intro x hx
      rcases List.mem_cons.mp hx with hx2 | hx2
      · exact hx2 ▸ hk
      · have hb := ihb x hx2
        rw [keyMem_append] at hb
        exact (Bool.or_eq_false_iff.mp hb).1

/-- C6.  In an interactive run every completed iteration begins from the
current `known` dict, selects a row that is not yet a key of it, and the
dict then grows by exactly that row's entry (nothing is removed or
changed); consequently no row index is ever queried twice in the same run
(the selected indices are pairwise distinct). -/
theorem interactive_known_growth {σ : Type} (D : Detector σ) (oracle : Nat → Nat → Bool)
    (st : σ) (oid : List Nat) (feature : List (List Int)) (B : Nat)
    (answers : Option (List (Nat × Bool))) :
    knownChainOk (runEager D st oid feature answers).2.1
      (runInteractive D oracle oid feature B (runEager D st oid feature answers).1
        (runEager D st oid feature answers).2.1).1 = true ∧
    ((runInteractive D oracle oid feature B (runEager D st oid feature answers).1
        (runEager D st oid feature answers).2.1).1.map IStep.sel).Nodup := by
  refine ⟨runInteractiveAux_chainOk D oracle oid feature _ 0 _ _, ?_⟩
  exact (chainOk_nodup _ _ (runInteractiveAux_chainOk D oracle oid feature _ 0 _ _)).1

/-- C5 (code bug).  One row whose identity already has a prior answer, an
interactive run with budget 1: at the first iteration every row is known,
`next(filter(...))` raises `StopIteration` inside the generator, which
PEP 479 turns into a `RuntimeError`; the run yields no record but ends in
an error instead of terminating cleanly. -/
theorem interactive_exhausted_raises :
    (runInteractive cDet1 (fun _ _ => true) [10] [[1]] 1
        (runEager cDet1 () [10] [[1]] (some [(10, true)])).1
        (runEager cDet1 () [10] [[1]] (some [(10, true)])).2.1).1 = [] ∧
    (runInteractive cDet1 (fun _ _ => true) [10] [[1]] 1
        (runEager cDet1 () [10] [[1]] (some [(10, true)])).1
        (runEager cDet1 () [10] [[1]] (some [(10, true)])).2.1).2.1
      = some RunErr.stopIterationRE := by decide

/-- C3 (code bug).  Identity 10 is located at row 0 and its recorded
answer is `false`, yet `_handle_initial_knowns` labels the row `ANOMALY`:
the override `known_labels[np.asarray(answers.values()) == 0] =
Label.REGULAR` indexes with the scalar `False` (a zero-dimensional object
array compared with 0) and so rewrites nothing. -/
theorem seeding_label_override_noop :
    (handleInitialKnowns cDet1 () [10] [[1]] (some [(10, false)])).2.1
      = [(0, Label.ANOMALY)] ∧
    Label.ANOMALY ≠ Label.REGULAR := by decide

/-- C7.  Seeding with an empty (or absent) prior-answers map touches the
model not at all and returns the empty map; a non-empty map produces
exactly one `observe` call whose batch is the located rows with their
label vector. -/
theorem seeding_single_observe {σ : Type} (D : Detector σ) (st : σ) (oid : List Nat)
    (feature : List (List Int)) (answers : Option (List (Nat × Bool))) :
    (handleInitialKnowns D st oid feature answers).2.2.length
        = (if isEmptyAnswers answers then 0 else 1) ∧
    (handleInitialKnowns D st oid feature answers).1
        = (if isEmptyAnswers answers then st
           else D.observe st (locatedData oid feature (answers.getD []))
             (knownLabelsOf (locatedIndices oid (answers.getD [])).length)) ∧
    (handleInitialKnowns D st oid feature answers).2.2
        = (if isEmptyAnswers answers then []
           else [MCall.observe (locatedData oid feature (answers.getD []))
             (knownLabelsOf (locatedIndices oid (answers.getD [])).length)]) := by
  cases answers with
  | none => simp [handleInitialKnowns, isEmptyAnswers]
  | some ans =>
    by_cases he : ans.isEmpty <;>
      simp [handleInitialKnowns, isEmptyAnswers, he]

/-- C8.  `record(identity, decision)` on an open sink appends the identity
line plus an immediate flush to the anomalies target exactly when the
decision is positive, and appends `identity,1|0` plus an immediate flush
to the answers target (when that target exists) regardless of the
decision. -/
theorem sink_record_behavior (sk : SinkState) (name : Nat) (decision : Bool) :
    (sinkCall sk name decision).anomalies
        = sk.anomalies ++ (if decision then
            [FEvent.write (toString name ++ "\n"), FEvent.flush] else []) ∧
    (sinkCall sk name decision).answers
        = (match sk.answers with
           | none => none
           | some l => some (l ++ [FEvent.write (toString name ++ "," ++
               (if decision then "1" else "0") ++ "\n"), FEvent.flush])) := by
  cases hs : sk.answers <;> cases decision <;>
    simp [sinkCall, handleAnomaly, handleAnswer, hs]

/-- C9.  Whatever the outcome of the constructor's I/O steps, building a
`ResultsSink` never propagates a failure; a target ends up open exactly
when every step succeeded (and, for the answers target, one was
requested), and a target ends up closed exactly when it had been opened
before a later step failed. -/
theorem sink_init_swallows (anomOpenOk answersRequested ansOpenOk headerOk : Bool) :
    (sinkInit anomOpenOk answersRequested ansOpenOk headerOk).raised = false ∧
    ((sinkInit anomOpenOk answersRequested ansOpenOk headerOk).anomaliesTarget
        = TargetState.opened
      ↔ sinkConstructionOk anomOpenOk answersRequested ansOpenOk headerOk = true) ∧
    ((sinkInit anomOpenOk answersRequested ansOpenOk headerOk).answersTarget
        = TargetState.opened
      ↔ (sinkConstructionOk anomOpenOk answersRequested ansOpenOk headerOk
          && answersRequested) = true) ∧
    ((sinkInit anomOpenOk answersRequested ansOpenOk headerOk).anomaliesTarget
        = TargetState.closed
      ↔ (anomOpenOk
          && !sinkConstructionOk anomOpenOk answersRequested ansOpenOk headerOk) = true) ∧
    ((sinkInit anomOpenOk answersRequested ansOpenOk headerOk).answersTarget
        = TargetState.closed
      ↔ (anomOpenOk && answersRequested && ansOpenOk && !headerOk) = true) := by
  cases anomOpenOk <;> cases answersRequested <;> cases ansOpenOk <;> cases headerOk <;>
    decide

/-- C10.  `run` trains the model and performs the seeding `observe` during
the call itself (they are in the eager trace, which contains no scoring
and no oracle call — the seeding `observe` appears exactly when the
prior-answers map is non-empty), while a returned sequence of which no
element is ever demanded performs no collaborator call at all. -/
theorem run_eager_lazy_split {σ : Type} (D : Detector σ) (nonInteractive : Bool) (B : Nat)
    (oracle : Nat → Nat → Bool) (st : σ) (oid : List Nat) (feature : List (List Int))
    (answers : Option (List (Nat × Bool))) :
    MCall.train ∈ (runEager D st oid feature answers).2.2 ∧
    (∀ c ∈ (runEager D st oid feature answers).2.2,
      c = MCall.train ∨ ∃ rows labs, c = MCall.observe rows labs) ∧
    ((isEmptyAnswers answers = false)
        ↔ ∃ rows labs, MCall.observe rows labs ∈ (runEager D st oid feature answers).2.2) ∧
    runConsume D nonInteractive B oracle st oid feature answers 0 = ([], none, []) := by
  have hcons : runConsume D nonInteractive B oracle st oid feature answers 0
      = ([], none, []) := by
    cases nonInteractive <;>
      simp [runConsume, consumeInteractive, consumeNonInteractive, runInteractiveAux,
        irecords]
  cases answers with
  | none => simpa [runEager, handleInitialKnowns, isEmptyAnswers] using hcons
  | some ans =>
    by_cases he : ans.isEmpty <;>
      simpa [runEager, handleInitialKnowns, isEmptyAnswers, he] using hcons

end Zwad
